import Mathlib

/-!
Verification development for the qdials repository (Qpid Dispatch Idle
Auto-Link Scrubber).  The definitions below are a shallow embedding of
src/qdials/__init__.py (management client) and src/qdials/_main.py
(poll orchestrator with two-cycle debounce).
-/

namespace Qdials

/-- Outcome of a management client operation as seen by Python callers:
either a value was returned, or the Python value None was returned
(written absent here), or an uncaught exception escaped the method
(written raised; the TypeError produced by a malformed percent-format
in a logging call takes this path). -/
inductive MgmtOutcome (α : Type) where
  | success (val : α)
  | absent
  | raised
deriving DecidableEq, Repr

/-- A management response message.  The properties map of the proton
message is modelled by its two fields consulted by the code, each
optional because dict.get returns None for a missing key; the body is
kept abstract in the type parameter. -/
structure Response (β : Type) where
  statusCode : Option Int
  statusDescription : Option String
  body : β
deriving DecidableEq, Repr

/-- MgmtClient.read, src/qdials/__init__.py lines 105 to 123.  The
argument models the result of self._client.call: none is a
ProtonException (caught; LOG.error; return None).  On a response whose
statusDescription differs from OK the code evaluates the expression
percent-formatting a three-placeholder string with the single argument
type, which raises TypeError before LOG.warning runs, so the
return None on line 121 is unreachable: that path is raised, not
absent. -/
def read {β : Type} (resp : Option (Response β)) : MgmtOutcome β :=
  match resp with
  | none => .absent
  | some r =>
    if r.statusDescription ≠ some "OK" then .raised
    else .success r.body

/-- Result of MgmtClient.delete: the three return paths of the code.
transportError is the caught ProtonException path (LOG.error, return
None); failedStatus is the statusCode ≠ 204 path (LOG.warning with a
correctly formed lazy format call, return status); deleted is the
return None success path. -/
inductive DelRes where
  | transportError
  | failedStatus (status : Option Int)
  | deleted
deriving DecidableEq, Repr

/-- MgmtClient.delete, src/qdials/__init__.py lines 125 to 143. -/
def delete {β : Type} (resp : Option (Response β)) : DelRes :=
  match resp with
  | none => .transportError
  | some r =>
    if r.statusCode ≠ some (204 : Int) then .failedStatus r.statusCode
    else .deleted

/-- QueryIterator, src/qdials/__init__.py lines 151 to 176: holds the
attribute-name header and the accumulated list of result rows in
concatenated page order. -/
structure QueryIterator (α : Type) where
  attributeNames : List String
  values : List (List α)
deriving DecidableEq, Repr

/-- One call of QueryIterator.__next__: self._values.pop() removes and
returns the LAST element of the list (IndexError on an empty list
becomes StopIteration, modelled by none), and the yielded row is
dict(zip(attribute_names, v)), modelled as the zipped association
list. -/
def QueryIterator.next {α : Type} (it : QueryIterator α) :
    Option (List (String × α)) × QueryIterator α :=
  match it.values.getLast? with
  | none => (none, it)
  | some v => (some (it.attributeNames.zip v), ⟨it.attributeNames, it.values.dropLast⟩)

/-- Full traversal of a QueryIterator: repeatedly take the next row
until StopIteration, returning the yielded rows in yield order together
with the final iterator state. -/
def QueryIterator.exhaust {α : Type} (it : QueryIterator α) :
    List (List (String × α)) × QueryIterator α :=
  match h : it.values.getLast? with
  | none => ([], it)
  | some v =>
    let rest := QueryIterator.exhaust ⟨it.attributeNames, it.values.dropLast⟩
    (it.attributeNames.zip v :: rest.1, rest.2)
termination_by it.values.length
decreasing_by
  have hne : it.values ≠ [] := by
    intro hnil
    rw [hnil] at h
    simp at h
  have hpos : 0 < it.values.length := List.length_pos.mpr hne
  simp [List.length_dropLast]
  omega

/-- The fixed page cap MAX_BATCH of MgmtClient.query,
src/qdials/__init__.py line 178. -/
def MAX_BATCH : Nat := 500

/-- Failure mode injected at one page request of a query: the request
raised ProtonException (transport), or the response carried a
statusDescription other than OK. -/
inductive FailKind where
  | transport
  | badStatus
deriving DecidableEq, Repr

/-- The pagination loop of MgmtClient.query, src/qdials/__init__.py
lines 178 to 211, run against a server holding the row list rows with
the per-page attribute-name header anames: the page served at a given
offset is the slice of MAX_BATCH rows starting there, unless the fail
oracle injects a failure at that offset.  Transport failure is caught
(LOG.error, return None, so absent).  A statusDescription other than OK
evaluates a two-placeholder percent-format applied to the single
argument type, which raises TypeError before LOG.warning runs, so the
return None on line 199 is unreachable: that path is raised.  Otherwise
the header is captured while still empty, the page rows are appended,
and the loop exits when a page is strictly shorter than MAX_BATCH, else
continues at offset + MAX_BATCH. -/
def queryAux {α : Type} (rows : List (List α)) (anames : List String)
    (fail : Nat → Option FailKind) (offset : Nat)
    (attrs : List String) (acc : List (List α)) :
    MgmtOutcome (QueryIterator α) :=
  match fail offset with
  | some .transport => .absent
  | some .badStatus => .raised
  | none =>
    let page := (rows.drop offset).take MAX_BATCH
    let attrs2 := if attrs.isEmpty then attrs ++ anames else attrs
    let acc2 := acc ++ page
    if page.length < MAX_BATCH then .success ⟨attrs2, acc2⟩
    else queryAux rows anames fail (offset + MAX_BATCH) attrs2 acc2
termination_by rows.length - offset
decreasing_by
  rename_i hlt
  simp only [page, List.length_take, List.length_drop, not_lt] at hlt
  have hM : (0 : Nat) < MAX_BATCH := by decide
  omega

/-- MgmtClient.query entry point: the loop starts at offset 0 with an
empty header accumulator and an empty row accumulator. -/
def query {α : Type} (rows : List (List α)) (anames : List String)
    (fail : Nat → Option FailKind) : MgmtOutcome (QueryIterator α) :=
  queryAux rows anames fail 0 [] []

/-- Python str.lower, modelled by lowering every character of the
string (faithful on the ASCII direction strings this program
handles). -/
def pyLower (s : String) : String := ⟨s.data.map Char.toLower⟩

/-- The raw attribute map passed to AutoLinkConfig by keyword expansion
in src/qdials/_main.py line 108: the four projected attributes of an
autoLink record, with the direction string still unnormalised. -/
structure RawConfig where
  address : String
  identity : String
  direction : String
  phase : Nat
deriving DecidableEq, Repr

/-- AutoLinkConfig after construction, src/qdials/__init__.py lines 49
to 59: address and identity are stored unchanged, direction is
normalised and q_address is derived. -/
structure AutoLinkConfig where
  address : String
  identity : String
  direction : String
  q_address : String
deriving DecidableEq, Repr

/-- The AutoLinkConfig constructor body: direction becomes in when the
input lower-cases to in and out in every other case, and q_address is
the percent-format M followed by phase then address. -/
def AutoLinkConfig.ofRaw (raw : RawConfig) : AutoLinkConfig :=
  { address := raw.address
    identity := raw.identity
    direction := if pyLower raw.direction = "in" then "in" else "out"
    q_address := "M" ++ Nat.repr raw.phase ++ raw.address }

/-- A CandidateKey: the pair (record identity, address) used in the
candidate and eligible sets of the orchestrator. -/
abbrev CK := String × String

/-- The body of a successful READ of an address record, restricted to
the two counter attributes consulted on src/qdials/_main.py lines 123
and 124. -/
structure AddressUsage where
  subscriberCount : Nat
  remoteCount : Nat
deriving DecidableEq, Repr

/-- One iteration of the record loop of src/qdials/_main.py lines 107
to 128, transforming the pair (candidate set, out_links index).  The
usage oracle gives the outcome of client.read on a queue address:
none when read returned None, some when it returned a body.  A record
whose normalised direction is out is recorded in out_links (dict
assignment, modelled by prepending so that lookup finds the most
recent binding) and skipped; otherwise the queue address is read,
absence skips the record, and a total usage count of zero adds
(identity, address) to the candidate set. -/
def scanStep (usage : String → Option AddressUsage)
    (st : Finset CK × List (String × String)) (raw : RawConfig) :
    Finset CK × List (String × String) :=
  let al := AutoLinkConfig.ofRaw raw
  if al.direction = "out" then
    (st.1, (al.address, al.identity) :: st.2)
  else
    match usage al.q_address with
    | none => st
    | some u =>
      if u.subscriberCount + u.remoteCount = 0 then
        (insert (al.identity, al.address) st.1, st.2)
      else st

/-- The whole record loop: fold scanStep over the records in iteration
order, starting from the empty candidate set and empty out_links. -/
def scan (recs : List RawConfig) (usage : String → Option AddressUsage) :
    Finset CK × List (String × String) :=
  recs.foldl (scanStep usage) (∅, [])

/-- The idle-observation (candidate) set a successful cycle builds
from its query results and read outcomes. -/
def candSet (recs : List RawConfig) (usage : String → Option AddressUsage) :
    Finset CK :=
  (scan recs usage).1

/-- The out_links index a cycle builds, looked up by address. -/
def outLookup (recs : List RawConfig) (usage : String → Option AddressUsage)
    (addr : String) : Option String :=
  (scan recs usage).2.lookup addr

/-- What one poll cycle is given: the MgmtClient constructor raised
ProtonException (connectFail, src/qdials/_main.py line 81), the
autolink query returned None (queryFail, line 91), or both succeeded
and produced a list of records in iteration order together with the
read outcomes for queue addresses. -/
inductive CycleInput where
  | connectFail
  | queryFail
  | success (recs : List RawConfig) (usage : String → Option AddressUsage)

/-- What one poll cycle did: the set of inbound autoLink deletes it
issued, the set of outbound deletes it issued (out identity, address),
and the eligible set it leaves for the next cycle. -/
structure CycleResult where
  deletes : Finset CK
  outDeletes : Finset CK
  eligAfter : Finset CK
deriving DecidableEq

/-- One iteration of the while loop of src/qdials/_main.py lines 72 to
152, parameterised by the remove-outlinks flag and the eligible set
carried in from the previous cycle.  Both failure paths reset eligible
to the empty set and issue nothing.  A successful cycle scans the
records, intersects the candidate set with the incoming eligible set
to obtain to_remove, deletes every member of to_remove, and, when the
flag is set, also deletes out_links[address] for every confirmed
address present in the index; it then saves the full candidate set
(not the confirmed set) as the next eligible set. -/
def runCycle (removeOut : Bool) (eligible : Finset CK) :
    CycleInput → CycleResult
  | .connectFail => ⟨∅, ∅, ∅⟩
  | .queryFail => ⟨∅, ∅, ∅⟩
  | .success recs usage =>
    let candidate := candSet recs usage
    let toRemove := candidate ∩ eligible
    let outDel : Finset CK :=
      if removeOut then
        (toRemove.filter (fun p => (outLookup recs usage p.2).isSome)).image
          (fun p => ((outLookup recs usage p.2).getD "", p.2))
      else ∅
    ⟨toRemove, outDel, candidate⟩

/-- Run a sequence of poll cycles from an initial eligible set,
returning the per-cycle results. -/
def runTrace (removeOut : Bool) (eligible : Finset CK) :
    List CycleInput → List CycleResult
  | [] => []
  | inp :: rest =>
    let r := runCycle removeOut eligible inp
    r :: runTrace removeOut r.eligAfter rest

/-- The eligible set after running a sequence of cycles. -/
def eligFold (removeOut : Bool) (eligible : Finset CK)
    (inps : List CycleInput) : Finset CK :=
  inps.foldl (fun e inp => (runCycle removeOut e inp).eligAfter) eligible

/-- The set of inbound deletes issued in cycle n of a run started from
the empty eligible set (the initial state of src/qdials/_main.py line
68), empty when the run has no cycle n. -/
def deletesAt (removeOut : Bool) (inps : List CycleInput) (n : Nat) :
    Finset CK :=
  (((runTrace removeOut ∅ inps).map CycleResult.deletes).getD n ∅)

/-- The deletion loop of src/qdials/_main.py lines 136 to 139 over the
confirmed records, with the delete response for each record given by an
oracle: the loop ignores the return value of client.delete, so every
confirmed record has its delete issued and its outcome recorded. -/
def deletePhase {β : Type} (respond : CK → Option (Response β))
    (toRemove : List CK) : List (CK × DelRes) :=
  toRemove.map (fun k => (k, delete (respond k)))

/-! Helper lemmas about the pagination loop. -/

theorem ifEmpty_idem (anames x : List String) :
    (if (if x.isEmpty then x ++ anames else x).isEmpty then
       (if x.isEmpty then x ++ anames else x) ++ anames
     else if x.isEmpty then x ++ anames else x) =
      if x.isEmpty then x ++ anames else x := by
  cases x <;> cases anames <;> simp

theorem queryAux_noFail {α : Type} (rows : List (List α)) (anames : List String)
    (fail : Nat → Option FailKind) (offset : Nat)
    (attrs : List String) (acc : List (List α)) (hf : ∀ i, fail i = none) :
    queryAux rows anames fail offset attrs acc =
      .success ⟨if attrs.isEmpty then attrs ++ anames else attrs,
                acc ++ rows.drop offset⟩ := by
  induction offset, attrs, acc using queryAux.induct rows anames fail with
  | case1 offset attrs acc heq => rw [hf offset] at heq; exact absurd heq (by simp)
  | case2 offset attrs acc heq => rw [hf offset] at heq; exact absurd heq (by simp)
  | case3 offset attrs acc heq page hlt =>
    simp only [page] at hlt
    rw [queryAux.eq_def, heq]
    simp only
    rw [if_pos hlt]
    have hle : (rows.drop offset).length ≤ MAX_BATCH := by
      simp only [List.length_take, List.length_drop] at hlt ⊢
      omega
    rw [List.take_of_length_le hle]
  | case4 offset attrs acc heq page attrs2 acc2 hnot ih =>
    simp only [page] at hnot
    simp only [page, attrs2, acc2, dite_eq_ite] at ih
    rw [queryAux.eq_def, heq]
    simp only
    rw [if_neg hnot]
    rw [ih]
    congr 1
    congr 1
    · exact ifEmpty_idem anames attrs
    · rw [List.append_assoc]
      congr 1
      rw [← List.drop_drop]
      exact List.take_append_drop _ _

theorem queryAux_transport {α : Type} (rows : List (List α))
    (anames : List String) (fail : Nat → Option FailKind) (offset : Nat)
    (attrs : List String) (acc : List (List α))
    (h : fail offset = some .transport) :
    queryAux rows anames fail offset attrs acc = .absent := by
  rw [queryAux.eq_def, h]

theorem queryAux_badStatus {α : Type} (rows : List (List α))
    (anames : List String) (fail : Nat → Option FailKind) (offset : Nat)
    (attrs : List String) (acc : List (List α))
    (h : fail offset = some .badStatus) :
    queryAux rows anames fail offset attrs acc = .raised := by
  rw [queryAux.eq_def, h]

theorem queryAux_step_full {α : Type} (rows : List (List α))
    (anames : List String) (fail : Nat → Option FailKind) (offset : Nat)
    (attrs : List String) (acc : List (List α))
    (h : fail offset = none)
    (hfull : ¬ ((rows.drop offset).take MAX_BATCH).length < MAX_BATCH) :
    queryAux rows anames fail offset attrs acc =
      queryAux rows anames fail (offset + MAX_BATCH)
        (if attrs.isEmpty then attrs ++ anames else attrs)
        (acc ++ (rows.drop offset).take MAX_BATCH) := by
  rw [queryAux.eq_def, h]
  simp only
  rw [if_neg hfull]

/-- C3: for every total row count and the fixed page cap MAX_BATCH,
when every page request succeeds, query returns all rows exactly once:
pages are requested with offset incremented by MAX_BATCH until a page
is strictly shorter than MAX_BATCH (covering the case of a final empty
page when the count is a multiple of the cap), and the concatenation
of all pages is the full server row list. -/
theorem pagination_complete {α : Type} (rows : List (List α))
    (anames : List String) :
    query rows anames (fun _ => none) = .success ⟨anames, rows⟩ := by
  rw [query, queryAux_noFail rows anames _ 0 [] [] (fun i => rfl)]
  simp

/-- C4: on a transport failure at any page the whole multi-page query
is aborted, the rows accumulated from earlier pages are discarded, and
the caller receives None (here: 600 server rows, the first page of 500
rows succeeds, the request at offset 500 fails; result is absent, not
a partial result).  However, the claim is wrong about a non-success
statusDescription: that path evaluates a percent-format with too few
arguments and raises TypeError instead of returning None, shown here
with a failing status on the very first page. -/
theorem query_status_failure_bug :
    query (List.replicate 600 ([] : List Nat)) ["identity"]
        (fun o => if o = 0 then none else some .transport) = .absent ∧
    query (List.replicate 600 ([] : List Nat)) ["identity"]
        (fun _ => some .badStatus) = .raised := by
  constructor
  · rw [query, queryAux_step_full _ _ _ _ _ _ (by norm_num)
      (by simp only [List.drop_zero, List.length_take, List.length_replicate,
        MAX_BATCH]; norm_num)]
    exact queryAux_transport _ _ _ _ _ _ (by norm_num [MAX_BATCH])
  · exact queryAux_badStatus _ _ _ _ _ _ rfl

/-- C5: read returns the response body on a success status and returns
None on a transport failure without raising, but the claim is wrong on
the non-success status path: there the code evaluates a percent-format
with too few arguments, which raises TypeError before the warning is
logged, so read raises instead of returning None. -/
theorem read_status_failure_bug :
    read (some (Response.mk (some 404) (some "Not Found") (0 : Nat))) = .raised ∧
    read (none : Option (Response Nat)) = .absent ∧
    read (some (Response.mk (some 200) (some "OK") (7 : Nat))) = .success 7 := by
  refine ⟨?_, rfl, ?_⟩ <;> decide

/-- C6: exactly a response with statusCode 204 counts as a confirmed
delete; any other status code (including the not-found status produced
by deleting an already absent identity) is reported as a failed status
and a transport failure is reported as a transport error, neither
raising; and the orchestrator issues a delete for every confirmed
record regardless of the outcomes of the other deletes in the same
cycle. -/
theorem delete_semantics (respond : CK → Option (Response Nat))
    (toRemove : List CK) (k : CK) (h : k ∈ toRemove) :
    (k, delete (respond k)) ∈ deletePhase respond toRemove ∧
    (∀ resp : Option (Response Nat),
      (delete resp = .deleted ↔ ∃ r, resp = some r ∧ r.statusCode = some 204)) ∧
    delete (some (Response.mk (some 404) (some "Not Found") (0 : Nat))) =
      .failedStatus (some 404) ∧
    delete (none : Option (Response Nat)) = .transportError := by
  refine ⟨List.mem_map_of_mem _ h, ?_, by decide, rfl⟩
  intro resp
  cases resp with
  | none => simp [delete]
  | some r =>
    simp only [delete]
    by_cases hs : r.statusCode = some (204 : Int)
    · simp [hs]
    · simp [hs]

/-- Witness for delete semantics at a concrete confirmed record. -/
theorem delete_semantics_witness :
    ((("id1", "addr1") : CK),
      delete ((fun _ => (none : Option (Response Nat))) (("id1", "addr1") : CK))) ∈
        deletePhase (fun _ => (none : Option (Response Nat))) [("id1", "addr1")] ∧
    (∀ resp : Option (Response Nat),
      (delete resp = .deleted ↔ ∃ r, resp = some r ∧ r.statusCode = some 204)) ∧
    delete (some (Response.mk (some 404) (some "Not Found") (0 : Nat))) =
      .failedStatus (some 404) ∧
    delete (none : Option (Response Nat)) = .transportError :=
  delete_semantics (fun _ => none) [("id1", "addr1")] ("id1", "addr1")
    (List.mem_singleton.mpr rfl)

/-- C9: the constructed record direction is in exactly when the raw
direction string lower-cases to in, hence every constructed direction
is in or out, and a record whose direction normalises to out (for
example the unexpected string sideways) is recorded in the out_links
index by the scan loop rather than rejected. -/
theorem direction_classification (raw : RawConfig)
    (usage : String → Option AddressUsage)
    (st : Finset CK × List (String × String)) :
    ((AutoLinkConfig.ofRaw raw).direction = "in" ↔ pyLower raw.direction = "in") ∧
    ((AutoLinkConfig.ofRaw raw).direction = "in" ∨
      (AutoLinkConfig.ofRaw raw).direction = "out") ∧
    ((AutoLinkConfig.ofRaw raw).direction = "out" →
      scanStep usage st raw = (st.1, (raw.address, raw.identity) :: st.2)) := by
  by_cases hd : pyLower raw.direction = "in" <;>
    simp [AutoLinkConfig.ofRaw, scanStep, hd]

/-- Witness for the direction classification at the concrete direction
string sideways, which is classified outbound and indexed. -/
theorem direction_classification_witness :
    ((AutoLinkConfig.ofRaw ⟨"addr1", "id1", "sideways", 0⟩).direction = "in" ↔
      pyLower "sideways" = "in") ∧
    ((AutoLinkConfig.ofRaw ⟨"addr1", "id1", "sideways", 0⟩).direction = "in" ∨
      (AutoLinkConfig.ofRaw ⟨"addr1", "id1", "sideways", 0⟩).direction = "out") ∧
    scanStep (fun _ => none) (∅, []) ⟨"addr1", "id1", "sideways", 0⟩ =
      (∅, [("addr1", "id1")]) :=
  ⟨(direction_classification ⟨"addr1", "id1", "sideways", 0⟩ (fun _ => none) (∅, [])).1,
   (direction_classification ⟨"addr1", "id1", "sideways", 0⟩ (fun _ => none) (∅, [])).2.1,
   (direction_classification ⟨"addr1", "id1", "sideways", 0⟩ (fun _ => none) (∅, [])).2.2
     (by decide)⟩

theorem ofRaw_address (raw : RawConfig) :
    (AutoLinkConfig.ofRaw raw).address = raw.address := rfl

theorem ofRaw_identity (raw : RawConfig) :
    (AutoLinkConfig.ofRaw raw).identity = raw.identity := rfl

theorem scanStep_out (usage : String → Option AddressUsage)
    (st : Finset CK × List (String × String)) (raw : RawConfig)
    (h : (AutoLinkConfig.ofRaw raw).direction = "out") :
    scanStep usage st raw = (st.1, (raw.address, raw.identity) :: st.2) := by
  simp [scanStep, h, ofRaw_address, ofRaw_identity]

theorem scanStep_skip (usage : String → Option AddressUsage)
    (st : Finset CK × List (String × String)) (raw : RawConfig)
    (h : (AutoLinkConfig.ofRaw raw).direction = "in")
    (hu : usage (AutoLinkConfig.ofRaw raw).q_address = none) :
    scanStep usage st raw = st := by
  simp [scanStep, h, hu]

theorem scanStep_idle (usage : String → Option AddressUsage)
    (st : Finset CK × List (String × String)) (raw : RawConfig)
    (u : AddressUsage)
    (h : (AutoLinkConfig.ofRaw raw).direction = "in")
    (hu : usage (AutoLinkConfig.ofRaw raw).q_address = some u)
    (hz : u.subscriberCount + u.remoteCount = 0) :
    scanStep usage st raw = (insert (raw.identity, raw.address) st.1, st.2) := by
  simp [scanStep, h, hu, hz, ofRaw_address, ofRaw_identity]

theorem scanStep_busy (usage : String → Option AddressUsage)
    (st : Finset CK × List (String × String)) (raw : RawConfig)
    (u : AddressUsage)
    (h : (AutoLinkConfig.ofRaw raw).direction = "in")
    (hu : usage (AutoLinkConfig.ofRaw raw).q_address = some u)
    (hz : ¬ u.subscriberCount + u.remoteCount = 0) :
    scanStep usage st raw = st := by
  simp [scanStep, h, hu, hz]

theorem ofRaw_direction_cases (raw : RawConfig) :
    (AutoLinkConfig.ofRaw raw).direction = "in" ∨
      (AutoLinkConfig.ofRaw raw).direction = "out" := by
  by_cases hd : pyLower raw.direction = "in" <;> simp [AutoLinkConfig.ofRaw, hd]

theorem scan_candidate_mem (usage : String → Option AddressUsage)
    (recs : List RawConfig) (st : Finset CK × List (String × String)) (k : CK) :
    k ∈ (recs.foldl (scanStep usage) st).1 ↔
      k ∈ st.1 ∨ ∃ raw ∈ recs,
        (AutoLinkConfig.ofRaw raw).direction = "in" ∧
        k = (raw.identity, raw.address) ∧
        ∃ u, usage (AutoLinkConfig.ofRaw raw).q_address = some u ∧
          u.subscriberCount + u.remoteCount = 0 := by
  induction recs generalizing st with
  | nil => simp
  | cons r rs ih =>
    rw [List.foldl_cons]
    simp only [List.mem_cons, or_and_right, exists_or, exists_eq_left]
    rcases ofRaw_direction_cases r with hdin | hdout
    · cases hu : usage (AutoLinkConfig.ofRaw r).q_address with
      | none =>
        rw [scanStep_skip usage st r hdin hu, ih]
        have hnp : ¬ ((AutoLinkConfig.ofRaw r).direction = "in" ∧
            k = (r.identity, r.address) ∧
            ∃ u2, (none : Option AddressUsage) = some u2 ∧
              u2.subscriberCount + u2.remoteCount = 0) := by
          rintro ⟨-, -, u2, hu2, -⟩
          exact Option.noConfusion hu2
        rw [iff_false_intro hnp, false_or]
      | some u =>
        by_cases hz : u.subscriberCount + u.remoteCount = 0
        · rw [scanStep_idle usage st r u hdin hu hz, ih]
          have hp : ((AutoLinkConfig.ofRaw r).direction = "in" ∧
              k = (r.identity, r.address) ∧
              ∃ u2, (some u : Option AddressUsage) = some u2 ∧
                u2.subscriberCount + u2.remoteCount = 0) ↔
              k = (r.identity, r.address) := by
            constructor
            · rintro ⟨-, hk, -⟩
              exact hk
            · intro hk
              exact ⟨hdin, hk, u, rfl, hz⟩
          rw [hp]
          simp only [Finset.mem_insert]
          rw [or_assoc, or_left_comm]
        · rw [scanStep_busy usage st r u hdin hu hz, ih]
          have hnp : ¬ ((AutoLinkConfig.ofRaw r).direction = "in" ∧
              k = (r.identity, r.address) ∧
              ∃ u2, (some u : Option AddressUsage) = some u2 ∧
                u2.subscriberCount + u2.remoteCount = 0) := by
            rintro ⟨-, -, u2, hu2, hz2⟩
            injection hu2 with he
            apply hz
            rw [he]
            exact hz2
          rw [iff_false_intro hnp, false_or]
    · rw [scanStep_out usage st r hdout, ih]
      have hnp : ¬ ((AutoLinkConfig.ofRaw r).direction = "in" ∧
          k = (r.identity, r.address) ∧
          ∃ u, usage (AutoLinkConfig.ofRaw r).q_address = some u ∧
            u.subscriberCount + u.remoteCount = 0) := by
        rintro ⟨h1, -, -⟩
        rw [hdout] at h1
        exact absurd h1 (by decide)
      rw [iff_false_intro hnp, false_or]

theorem scanStep_in_snd (usage : String → Option AddressUsage)
    (st : Finset CK × List (String × String)) (raw : RawConfig)
    (h : (AutoLinkConfig.ofRaw raw).direction = "in") :
    (scanStep usage st raw).2 = st.2 := by
  rcases hu : usage (AutoLinkConfig.ofRaw raw).q_address with - | u
  · rw [scanStep_skip usage st raw h hu]
  · by_cases hz : u.subscriberCount + u.remoteCount = 0
    · rw [scanStep_idle usage st raw u h hu hz]
    · rw [scanStep_busy usage st raw u h hu hz]

theorem scan_outlinks_mem (usage : String → Option AddressUsage)
    (recs : List RawConfig) (st : Finset CK × List (String × String))
    (a i : String) :
    (a, i) ∈ (recs.foldl (scanStep usage) st).2 ↔
      (a, i) ∈ st.2 ∨ ∃ raw ∈ recs,
        (AutoLinkConfig.ofRaw raw).direction = "out" ∧
        raw.address = a ∧ raw.identity = i := by
  induction recs generalizing st with
  | nil => simp
  | cons r rs ih =>
    rw [List.foldl_cons]
    simp only [List.mem_cons, or_and_right, exists_or, exists_eq_left]
    rcases ofRaw_direction_cases r with hdin | hdout
    · rw [ih, scanStep_in_snd usage st r hdin]
      have hnp : ¬ ((AutoLinkConfig.ofRaw r).direction = "out" ∧
          r.address = a ∧ r.identity = i) := by
        rintro ⟨h1, -⟩
        rw [hdin] at h1
        exact absurd h1 (by decide)
      rw [iff_false_intro hnp, false_or]
    · rw [scanStep_out usage st r hdout, ih]
      simp only [List.mem_cons]
      have hp : ((a, i) = (r.address, r.identity)) ↔
          ((AutoLinkConfig.ofRaw r).direction = "out" ∧
            r.address = a ∧ r.identity = i) := by
        constructor
        · intro hk
          obtain ⟨h1, h2⟩ := Prod.mk.injEq .. ▸ hk
          exact ⟨hdout, h1.symm, h2.symm⟩
        · rintro ⟨-, h2, h3⟩
          rw [h2, h3]
      rw [hp, or_assoc, or_left_comm]

theorem lookup_mem (l : List (String × String)) (a b : String)
    (h : l.lookup a = some b) : (a, b) ∈ l := by
  induction l with
  | nil => simp [List.lookup] at h
  | cons x xs ih =>
    rw [List.lookup] at h
    split at h
    · rename_i heq
      have h1 : a = x.1 := by simpa using heq
      have h2 : x.2 = b := by simpa using h
      have hx : (a, b) = x := by
        cases x
        simp_all
      rw [hx]
      exact List.mem_cons_self _ _
    · exact List.mem_cons_of_mem _ (ih h)

theorem runCycle_success_deletes (ro : Bool) (e : Finset CK)
    (recs : List RawConfig) (usage : String → Option AddressUsage) :
    (runCycle ro e (.success recs usage)).deletes = candSet recs usage ∩ e := rfl

theorem runCycle_success_elig (ro : Bool) (e : Finset CK)
    (recs : List RawConfig) (usage : String → Option AddressUsage) :
    (runCycle ro e (.success recs usage)).eligAfter = candSet recs usage := rfl

theorem runCycle_success_outDeletes (ro : Bool) (e : Finset CK)
    (recs : List RawConfig) (usage : String → Option AddressUsage) :
    (runCycle ro e (.success recs usage)).outDeletes =
      if ro then
        (((candSet recs usage ∩ e).filter
            (fun p => (outLookup recs usage p.2).isSome)).image
          (fun p => ((outLookup recs usage p.2).getD "", p.2)))
      else ∅ := rfl

theorem mem_outDel_iff (ro : Bool) (e : Finset CK) (recs : List RawConfig)
    (usage : String → Option AddressUsage) (p : CK) :
    p ∈ (runCycle ro e (.success recs usage)).outDeletes ↔
      ro = true ∧ outLookup recs usage p.2 = some p.1 ∧
        ∃ id, (id, p.2) ∈ candSet recs usage ∩ e := by
  obtain ⟨p1, p2⟩ := p
  rw [runCycle_success_outDeletes]
  cases ro with
  | false => simp
  | true =>
    simp only [if_true, Finset.mem_image, Finset.mem_filter, true_and]
    constructor
    · rintro ⟨⟨x1, x2⟩, ⟨hxS, hsome⟩, hfx⟩
      obtain ⟨hf1, hf2⟩ := Prod.mk.injEq .. ▸ hfx
      subst hf2
      obtain ⟨v, hv⟩ := Option.isSome_iff_exists.mp hsome
      rw [hv] at hf1 ⊢
      simp only [Option.getD_some] at hf1
      exact ⟨by rw [hf1], x1, hxS⟩
    · rintro ⟨hlk, id, hidS⟩
      refine ⟨(id, p2), ⟨hidS, by rw [hlk]; rfl⟩, by rw [hlk]; rfl⟩

theorem outLookup_provenance (recs : List RawConfig)
    (usage : String → Option AddressUsage) (addr oid : String)
    (h : outLookup recs usage addr = some oid) :
    ∃ raw ∈ recs, (AutoLinkConfig.ofRaw raw).direction = "out" ∧
      raw.address = addr ∧ raw.identity = oid := by
  have hm : (addr, oid) ∈ (scan recs usage).2 :=
    lookup_mem _ _ _ h
  rw [scan] at hm
  rcases (scan_outlinks_mem usage recs (∅, []) addr oid).mp hm with hn | hex
  · exact absurd hn (by simp)
  · exact hex

/-- C7: a pair (identity, address) is in the idle-observation set of a
cycle exactly when some inbound record in the query results names it
and the read of its derived queue address returned usage data whose
subscriberCount plus remoteCount is zero; in particular a record whose
read returns absent contributes no idle vote. -/
theorem candidate_vote (recs : List RawConfig)
    (usage : String → Option AddressUsage) (k : CK) :
    k ∈ candSet recs usage ↔
      ∃ raw ∈ recs, (AutoLinkConfig.ofRaw raw).direction = "in" ∧
        k = (raw.identity, raw.address) ∧
        ∃ u, usage (AutoLinkConfig.ofRaw raw).q_address = some u ∧
          u.subscriberCount + u.remoteCount = 0 := by
  rw [candSet, scan, scan_candidate_mem]
  simp

/-- C8: an outbound delete (out identity, address) is issued in a
successful cycle exactly when the remove-outlinks flag is set, the
out_links index of that cycle maps the address to that identity, and
some inbound record with that address was confirmed for deletion; and
every binding in the out_links index comes from an outbound record
with that address in the same cycle, so without the flag or without an
outbound record sharing the address no outbound delete happens. -/
theorem out_delete_gating (ro : Bool) (e : Finset CK)
    (recs : List RawConfig) (usage : String → Option AddressUsage) (p : CK) :
    (p ∈ (runCycle ro e (.success recs usage)).outDeletes ↔
      ro = true ∧ outLookup recs usage p.2 = some p.1 ∧
        ∃ id, (id, p.2) ∈ (runCycle ro e (.success recs usage)).deletes) ∧
    (∀ addr oid, outLookup recs usage addr = some oid →
      ∃ raw ∈ recs, (AutoLinkConfig.ofRaw raw).direction = "out" ∧
        raw.address = addr ∧ raw.identity = oid) := by
  constructor
  · rw [runCycle_success_deletes]
    exact mem_outDel_iff ro e recs usage p
  · intro addr oid h
    exact outLookup_provenance recs usage addr oid h

/-- Witness for the outbound gating at a concrete cycle: one outbound
and one inbound record share address a1, the inbound pair is eligible
and idle, so its outbound partner is deleted when the flag is set. -/
theorem out_delete_gating_witness :
    ((("id2", "a1") : CK) ∈
        (runCycle true {(("id1", "a1") : CK)}
          (.success [⟨"a1", "id2", "out", 0⟩, ⟨"a1", "id1", "in", 0⟩]
            (fun _ => some ⟨0, 0⟩))).outDeletes ↔
      true = true ∧
        outLookup [⟨"a1", "id2", "out", 0⟩, ⟨"a1", "id1", "in", 0⟩]
          (fun _ => some ⟨0, 0⟩) "a1" = some "id2" ∧
        ∃ id, ((id, "a1") : CK) ∈
          (runCycle true {(("id1", "a1") : CK)}
            (.success [⟨"a1", "id2", "out", 0⟩, ⟨"a1", "id1", "in", 0⟩]
              (fun _ => some ⟨0, 0⟩))).deletes) ∧
    (∃ raw ∈ [(⟨"a1", "id2", "out", 0⟩ : RawConfig), ⟨"a1", "id1", "in", 0⟩],
      (AutoLinkConfig.ofRaw raw).direction = "out" ∧
        raw.address = "a1" ∧ raw.identity = "id2") :=
  ⟨(out_delete_gating true {("id1", "a1")}
      [⟨"a1", "id2", "out", 0⟩, ⟨"a1", "id1", "in", 0⟩] (fun _ => some ⟨0, 0⟩)
      ("id2", "a1")).1,
   (out_delete_gating true {("id1", "a1")}
      [⟨"a1", "id2", "out", 0⟩, ⟨"a1", "id1", "in", 0⟩] (fun _ => some ⟨0, 0⟩)
      ("id2", "a1")).2 "a1" "id2" (by decide)⟩

/-! Trace lemmas for the multi-cycle debounce argument. -/

theorem runCycle_fail_connect (ro : Bool) (e : Finset CK) :
    runCycle ro e .connectFail = ⟨∅, ∅, ∅⟩ := rfl

theorem runCycle_fail_query (ro : Bool) (e : Finset CK) :
    runCycle ro e .queryFail = ⟨∅, ∅, ∅⟩ := rfl

theorem runTrace_append (ro : Bool) (e : Finset CK)
    (xs ys : List CycleInput) :
    runTrace ro e (xs ++ ys) =
      runTrace ro e xs ++ runTrace ro (eligFold ro e xs) ys := by
  induction xs generalizing e with
  | nil => simp [runTrace, eligFold]
  | cons x xs ih =>
    rw [List.cons_append, runTrace, runTrace]
    rw [ih]
    simp only [eligFold, List.foldl_cons, List.cons_append]

theorem runTrace_length (ro : Bool) (e : Finset CK)
    (inps : List CycleInput) :
    (runTrace ro e inps).length = inps.length := by
  induction inps generalizing e with
  | nil => rfl
  | cons x xs ih =>
    rw [runTrace]
    simp only [List.length_cons, ih]

theorem runTrace_getElem? (ro : Bool) (e : Finset CK)
    (inps : List CycleInput) (n : Nat) :
    (runTrace ro e inps)[n]? =
      (inps[n]?).map (fun inp => runCycle ro (eligFold ro e (inps.take n)) inp) := by
  induction inps generalizing e n with
  | nil => simp [runTrace]
  | cons x xs ih =>
    cases n with
    | zero =>
      rw [runTrace]
      simp [eligFold]
    | succ m =>
      rw [runTrace]
      simp only [List.getElem?_cons_succ, List.take_succ_cons]
      rw [ih]
      simp only [eligFold, List.foldl_cons]

/-- The eligible set entering cycle n of a run is fully determined by
the input of cycle n-1 alone: the empty set after a failure, the
candidate set of that cycle after a success. -/
theorem eligFold_last (ro : Bool) (e : Finset CK)
    (inps : List CycleInput) (n : Nat) (inp : CycleInput)
    (h : inps[n]? = some inp) :
    eligFold ro e (inps.take (n + 1)) =
      (runCycle ro (eligFold ro e (inps.take n)) inp).eligAfter := by
  rw [List.take_succ, h]
  simp only [Option.toList_some]
  rw [eligFold, List.foldl_append]
  rw [List.foldl_cons, List.foldl_nil]
  rfl

theorem eligAfter_indep (ro : Bool) (e e2 : Finset CK) (inp : CycleInput) :
    (runCycle ro e inp).eligAfter = (runCycle ro e2 inp).eligAfter := by
  cases inp with
  | connectFail => rfl
  | queryFail => rfl
  | success recs usage => rfl

theorem deletesAt_eq (ro : Bool) (inps : List CycleInput) (n : Nat) :
    deletesAt ro inps n =
      ((inps[n]?).map
        (fun inp => (runCycle ro (eligFold ro ∅ (inps.take n)) inp).deletes)).getD ∅ := by
  rw [deletesAt, List.getD_eq_getElem?_getD, List.getElem?_map, runTrace_getElem?]
  cases inps[n]? <;> rfl

/-- C1: in every run started from the empty eligible set, a candidate
key is deleted in cycle n exactly when cycle n is a successful cycle
observing it idle and cycle n - 1 is also a successful cycle observing
it idle (the deletion set is the intersection of the current idle
observations with the eligibility set carried over); in particular a
single idle observation never deletes, and after every successful
cycle the eligibility baseline becomes the full current
idle-observation set, not the confirmed set. -/
theorem debounce_soundness (ro : Bool) (inps : List CycleInput)
    (n : Nat) (k : CK) :
    (k ∈ deletesAt ro inps n ↔
      (∃ r2 u2, inps[n]? = some (.success r2 u2) ∧ k ∈ candSet r2 u2) ∧
      (1 ≤ n ∧ ∃ r1 u1, inps[n - 1]? = some (.success r1 u1) ∧
        k ∈ candSet r1 u1)) ∧
    (∀ (e : Finset CK) (recs : List RawConfig)
        (usage : String → Option AddressUsage),
      (runCycle ro e (.success recs usage)).eligAfter = candSet recs usage) := by
  refine ⟨?_, fun e recs usage => rfl⟩
  rw [deletesAt_eq]
  rcases n with - | m
  · cases hi : inps[0]? with
    | none => simp
    | some inp =>
      have hef : eligFold ro ∅ (inps.take 0) = ∅ := rfl
      rw [hef]
      cases inp with
      | connectFail => simp [runCycle_fail_connect]
      | queryFail => simp [runCycle_fail_query]
      | success recs usage => simp [runCycle_success_deletes]
  · cases hi : inps[m + 1]? with
    | none => simp
    | some inp =>
      have hlt : m + 1 < inps.length := by
        rcases List.getElem?_eq_some.mp hi with ⟨h1, -⟩
        exact h1
      have hm : m < inps.length := by omega
      obtain ⟨inp1, hi1⟩ : ∃ x, inps[m]? = some x :=
        ⟨inps[m], List.getElem?_eq_getElem hm⟩
      have hn1 : m + 1 - 1 = m := rfl
      rw [hn1, hi1, eligFold_last ro ∅ inps m inp1 hi1]
      cases inp1 with
      | connectFail =>
        cases inp with
        | connectFail => simp [runCycle_fail_connect]
        | queryFail => simp [runCycle_fail_connect, runCycle_fail_query]
        | success r2 u2 =>
          simp [runCycle_fail_connect, runCycle_success_deletes]
      | queryFail =>
        cases inp with
        | connectFail => simp [runCycle_fail_connect, runCycle_fail_query]
        | queryFail => simp [runCycle_fail_query]
        | success r2 u2 =>
          simp [runCycle_fail_query, runCycle_success_deletes]
      | success r1 u1 =>
        cases inp with
        | connectFail => simp [runCycle_fail_connect]
        | queryFail => simp [runCycle_fail_query]
        | success r2 u2 =>
          simp only [Option.map_some', Option.getD_some,
            runCycle_success_elig, runCycle_success_deletes,
            Finset.mem_inter, hi, Option.some.injEq, CycleInput.success.injEq,
            Nat.le_add_left, true_and]
          constructor
          · rintro ⟨h2, h1⟩
            exact ⟨⟨r2, u2, ⟨rfl, rfl⟩, h2⟩, ⟨r1, u1, ⟨rfl, rfl⟩, h1⟩⟩
          · rintro ⟨⟨r2x, u2x, ⟨he1, he2⟩, h2⟩, ⟨r1x, u1x, ⟨he3, he4⟩, h1⟩⟩
            subst he1
            subst he2
            subst he3
            subst he4
            exact ⟨h2, h1⟩

/-- C2: a cycle whose management connection fails or whose autolink
query fails issues no deletions and resets the eligibility set to
empty, so the cycles after the failure behave exactly like a fresh run
started from the empty eligibility set: observations made before the
failed cycle can never contribute to a later deletion, and at least
two consecutive successful idle observations are again required. -/
theorem fail_closed (ro : Bool) (e : Finset CK)
    (pre post : List CycleInput) (inp : CycleInput)
    (h : inp = CycleInput.connectFail ∨ inp = CycleInput.queryFail) :
    runCycle ro (eligFold ro e pre) inp = ⟨∅, ∅, ∅⟩ ∧
    runTrace ro e (pre ++ inp :: post) =
      runTrace ro e pre ++ (⟨∅, ∅, ∅⟩ : CycleResult) :: runTrace ro ∅ post := by
  have hcyc : ∀ e2 : Finset CK, runCycle ro e2 inp = ⟨∅, ∅, ∅⟩ := by
    intro e2
    rcases h with h | h <;> subst h
    · exact runCycle_fail_connect ro e2
    · exact runCycle_fail_query ro e2
  refine ⟨hcyc _, ?_⟩
  rw [runTrace_append]
  congr 1
  simp only [runTrace, hcyc]

/-- Witness for the fail-closed property at a concrete failing cycle. -/
theorem fail_closed_witness :
    runCycle false (eligFold false ∅ []) CycleInput.connectFail = ⟨∅, ∅, ∅⟩ ∧
    runTrace false ∅ ([] ++ CycleInput.connectFail :: []) =
      runTrace false ∅ [] ++
        (⟨∅, ∅, ∅⟩ : CycleResult) :: runTrace false ∅ [] :=
  fail_closed false ∅ [] [] CycleInput.connectFail (Or.inl rfl)

theorem exhaust_eq {α : Type} (it : QueryIterator α) :
    it.exhaust = (it.values.reverse.map (fun v => it.attributeNames.zip v),
                  ⟨it.attributeNames, []⟩) := by
  induction it using QueryIterator.exhaust.induct with
  | case1 it heq =>
    have hnil : it.values = [] := by
      cases hv : it.values with
      | nil => rfl
      | cons x xs =>
        rw [hv] at heq
        simp at heq
    rw [QueryIterator.exhaust.eq_def, heq, hnil]
    obtain ⟨names, vals⟩ := it
    simp_all
  | case2 it v heq ih =>
    have hne : it.values ≠ [] := by
      intro hnil
      rw [hnil] at heq
      simp at heq
    have hvals : it.values = it.values.dropLast ++ [v] := by
      have hlast := List.getLast?_eq_getLast it.values hne
      rw [hlast] at heq
      injection heq with he
      rw [← he]
      exact (List.dropLast_append_getLast hne).symm
    rw [QueryIterator.exhaust.eq_def, heq]
    simp only [ih]
    have hlist : it.values.reverse = v :: it.values.dropLast.reverse := by
      conv_lhs => rw [hvals]
      simp
    rw [hlist]
    simp

/-- C10: the object returned by a successful query is a destructive
reverse-order iterator: one step on a nonempty value list pops the
last row and yields it zipped with the attribute-name header, a step
on an empty list stops the iteration, a full traversal yields exactly
the rows in reverse of concatenated page order (each exactly once),
and a second traversal of the same object yields nothing. -/
theorem query_iterator_semantics {α : Type} (names : List String)
    (vs : List (List α)) (v : List α) (it : QueryIterator α) :
    (QueryIterator.mk names (vs ++ [v])).next =
      (some (names.zip v), ⟨names, vs⟩) ∧
    (QueryIterator.mk names ([] : List (List α))).next = (none, ⟨names, []⟩) ∧
    it.exhaust.1 = it.values.reverse.map (fun w => it.attributeNames.zip w) ∧
    it.exhaust.2.exhaust.1 = [] := by
  refine ⟨?_, rfl, ?_, ?_⟩
  · simp [QueryIterator.next, List.getLast?_concat, List.dropLast_concat]
  · rw [exhaust_eq]
  · rw [exhaust_eq]
    rw [exhaust_eq]
    simp

end Qdials
